import Mathlib

/-!
Verification of the `chrish` shell core (src/chrish.c).

The C source is shallowly embedded: the process-visible state (current
working directory, the sequence of writes to stdout and to stderr) is an
explicit `World` record threaded through the functions; OS facilities
(`chdir`, `fork`/`execvp`/`waitpid`, `malloc`/`realloc`) are modelled by
explicit oracles supplied as parameters; C ints returned by the handlers
are kept as `Nat` (1 = continue, 0 = terminate, matching the source).
-/

namespace Chrish

/-- Process-visible state: the current working directory and the two output
streams, each modelled as the ordered list of strings written to it. -/
structure World where
  cwd : String
  stdoutS : List String
  stderrS : List String
deriving Repr, DecidableEq

/-- A write to standard output. -/
def World.outW (w : World) (s : String) : World :=
  ⟨w.cwd, w.stdoutS ++ [s], w.stderrS⟩

/-- A write to standard error. -/
def World.errW (w : World) (s : String) : World :=
  ⟨w.cwd, w.stdoutS, w.stderrS ++ [s]⟩

/-- A successful `chdir`. -/
def World.setCwd (w : World) (c : String) : World :=
  ⟨c, w.stdoutS, w.stderrS⟩

/-- `#define CHRISH_TOK_DELIM " \t\r\n\a"` — the delimiter characters
(space, tab, carriage return, newline, bell). -/
def CHRISH_TOK_DELIM : List Char := [' ', '\t', '\r', '\n', '\x07']

/-- Membership in the strtok delimiter set. -/
def isDelim (c : Char) : Bool := CHRISH_TOK_DELIM.contains c

/-- One round plus the rest of the repeated `strtok(line, CHRISH_TOK_DELIM)` /
`strtok(NULL, ...)` calls on a character sequence: skip leading delimiters;
if characters remain, the next token is the maximal run of non-delimiters,
and the scan continues after it. The `fuel` argument only forces structural
recursion; every character consumes at least one unit, so `length + 1` units
always suffice (`strtokGo_fuel`). -/
def strtokGo : Nat → List Char → List (List Char)
  | 0, _ => []
  | Nat.succ fuel, s =>
    match s.dropWhile isDelim with
    | [] => []
    | c :: cs =>
      ((c :: cs).takeWhile (fun x => !isDelim x)) ::
        strtokGo fuel ((c :: cs).dropWhile (fun x => !isDelim x))

/-- The token sequence the `strtok` loop of `chrish_split_line`
(src/chrish.c:168-186) extracts from a character sequence. -/
def strtokAll (s : List Char) : List (List Char) := strtokGo (s.length + 1) s

/-- `chrish_split_line` (src/chrish.c:156-190) with allocation assumed to
succeed: produce the token vector, and — as the source does at line 188 —
print the token count to standard output before returning. -/
def chrish_split_line (line : String) (w : World) : List String × World :=
  let toks := (strtokAll line.data).map (fun cs => String.mk cs)
  (toks, w.outW (toString toks.length ++ "\n"))

/-- One status reported by `waitpid` with `WUNTRACED`: the child exited with a
code, was terminated by a signal, or stopped (suspended). -/
inductive WaitStatus where
  | exited (code : Nat)
  | signaled (sig : Nat)
  | stopped (sig : Nat)
deriving Repr, DecidableEq

/-- `WIFEXITED(status)`. -/
def WIFEXITED : WaitStatus → Bool
  | .exited _ => true
  | _ => false

/-- `WIFSIGNALED(status)`. -/
def WIFSIGNALED : WaitStatus → Bool
  | .signaled _ => true
  | _ => false

/-- Oracle for one `fork`/`execvp`/`waitpid` episode: whether `fork` fails
(and with what error text), whether `execvp` in the child fails (and with
what error text), and the sequence of statuses successive `waitpid` calls
would report for the child. -/
structure LaunchModel where
  forkFails : Bool
  forkErr : String
  execErr : Option String
  childEvents : List WaitStatus
deriving Repr, DecidableEq

/-- The `do { waitpid } while (!WIFEXITED && !WIFSIGNALED)` loop of
`chrish_launch` (src/chrish.c:107-109): the first reported status that is a
true exit or signal termination; `none` if the reported statuses never
include one (the parent never stops waiting). -/
def waitLoop : List WaitStatus → Option WaitStatus
  | [] => none
  | s :: rest => if WIFEXITED s || WIFSIGNALED s then some s else waitLoop rest

/-- Number of `waitpid` calls the loop performs before returning (the whole
list if no terminal status ever arrives). -/
def waitCallCount : List WaitStatus → Nat
  | [] => 0
  | s :: rest => 1 + (if WIFEXITED s || WIFSIGNALED s then 0 else waitCallCount rest)

/-- What the child process does after `fork` in `chrish_launch`
(src/chrish.c:96-101): if `execvp` fails it prints `perror("chrish")` to its
error stream and calls `exit(EXIT_FAILURE)`; if `execvp` succeeds the child's
image is replaced (no exit code is produced by this code). Result: the
child's stderr writes and its exit code from this code path. -/
def childRun (m : LaunchModel) : List String × Option Nat :=
  match m.execErr with
  | some msg => (["chrish: " ++ msg ++ "\n"], some 1)
  | none => ([], none)

/-- `chrish_launch` (src/chrish.c:90-113): fork; on fork failure report the
error (no wait happens); otherwise wait until the child truly terminates.
Returns `none` when the wait never ends, otherwise the continuation signal
(always 1) and the parent's world. -/
def chrish_launch (m : LaunchModel) (args : List String) (w : World) :
    Option (Nat × World) :=
  if m.forkFails then
    some (1, w.errW ("chrish: " ++ m.forkErr ++ "\n"))
  else
    match waitLoop m.childEvents with
    | some _ => some (1, w)
    | none => none

/-- `waitpid` calls performed by one `chrish_launch` episode. -/
def launchWaitCalls (m : LaunchModel) : Nat :=
  if m.forkFails then 0 else waitCallCount m.childEvents

/-- The OS oracles a dispatch needs: the result of `chdir` on a path (new
working directory, or the `errno` text `perror` would print), and the
launch-episode oracle. -/
structure Env where
  chdir : String → Except String String
  launch : LaunchModel

/-- `chrish_cd` (src/chrish.c:43-53): if `args[1]` is NULL print a usage
message to stderr; otherwise call `chdir(args[1])` and on failure print
`perror("chrish")`. Always returns 1. -/
def chrish_cd (chdir : String → Except String String) (args : List String)
    (w : World) : Nat × World :=
  match args.get? 1 with
  | none => (1, w.errW "chrish: expected argument to \"cd\"\n")
  | some d =>
    match chdir d with
    | .ok c => (1, w.setCwd c)
    | .error msg => (1, w.errW ("chrish: " ++ msg ++ "\n"))

/-- `builtin_str` (src/chrish.c:17-21). -/
def builtin_str : List String := ["cd", "help", "exit"]

/-- `chrish_num_builtins` (src/chrish.c:29-32):
`sizeof(builtin_str) / sizeof(char *)`. -/
def chrish_num_builtins : Nat := builtin_str.length

/-- `chrish_help` (src/chrish.c:60-73): print the banner, one line
`"  %s\n"` per entry of `builtin_str` for indices `0 ≤ i < chrish_num_builtins`,
and the closing note. Always returns 1. The arguments are not examined. -/
def chrish_help (args : List String) (w : World) : Nat × World :=
  let w1 := w.outW "Stephen Brennan's CHRISH\n"
  let w2 := w1.outW "Type program names and arguments, and hit enter.\n"
  let w3 := w2.outW "The following are built in:\n"
  let w4 := (List.range chrish_num_builtins).foldl
    (fun acc i => acc.outW ("  " ++ builtin_str.getD i "" ++ "\n")) w3
  (1, w4.outW "Use the man command for information on other programs.\n")

/-- `chrish_exit` (src/chrish.c:80-83): return 0 regardless of the
arguments, with no other effect. -/
def chrish_exit (args : List String) (w : World) : Nat × World :=
  (0, w)

/-- A dispatched handler: arguments and world in, optional signal and world
out (`none` models an external launch whose wait never ends). -/
def Handler : Type := List String → World → Option (Nat × World)

/-- `builtin_func` (src/chrish.c:23-27): the handlers, in the same order as
`builtin_str`. -/
def builtin_func (env : Env) : List Handler :=
  [fun args w => some (chrish_cd env.chdir args w),
   fun args w => some (chrish_help args w),
   fun args w => some (chrish_exit args w)]

/-- The `for` loop of `chrish_execute` (src/chrish.c:129-133), walking the
name/handler pairs in table order: on the first exact `strcmp` match invoke
the paired handler; if no name matches, fall through to `chrish_launch`. -/
def dispatchAux (env : Env) (a0 : String) (args : List String) (w : World) :
    List (String × Handler) → Option (Nat × World)
  | [] => chrish_launch env.launch args w
  | (name, h) :: rest =>
    if a0 = name then h args w else dispatchAux env a0 args w rest

/-- `chrish_execute` (src/chrish.c:120-136): empty vector returns 1 at once;
otherwise scan the builtin tables for an exact match on `args[0]` and invoke
the matched handler, else launch an external program. -/
def chrish_execute (env : Env) (args : List String) (w : World) :
    Option (Nat × World) :=
  match args with
  | [] => some (1, w)
  | a0 :: _ => dispatchAux env a0 args w (builtin_str.zip (builtin_func env))

/-- State of the `args` pointer of `chrish_loop` (src/chrish.c:197): never
assigned yet (the declaration leaves it indeterminate), pointing at a live
allocation, or pointing at an allocation that has already been freed. -/
inductive PtrSt where
  | uninit
  | valid
  | freed
deriving Repr, DecidableEq

/-- Whether `free` on a pointer in this state is well defined (freeing an
indeterminate or already-freed pointer is not). -/
def PtrSt.freeOk : PtrSt → Bool
  | .valid => true
  | _ => false

/-- How the loop stopped: the input stream ended, or the `exit` builtin
returned 0. -/
inductive ExitVia where
  | endOfInput
  | exitBuiltin
deriving Repr, DecidableEq

/-- Result of a `chrish_loop` run: how it stopped, the process exit code,
the final world, and whether every `free(args)` performed on the way was on
a live pointer. -/
structure LoopRes where
  via : ExitVia
  code : Nat
  world : World
  allFreesOk : Bool
deriving Repr, DecidableEq

/-- `chrish_loop` (src/chrish.c:195-217), driven by the list of lines the
input stream still holds (each as `getline` returns it, trailing newline
included; after the list is exhausted `getline` returns -1). Each iteration:
print the prompt `"> "`, read a line, print `getline`'s return value
(src/chrish.c:204). On end of input, `free(line)` and `free(args)` — the
latter on whatever state `args` is in — then `exit(EXIT_SUCCESS)`. Otherwise
tokenize (which assigns `args` a live allocation), dispatch, `free(line)`,
`free(args)`, and loop while the status is nonzero. `none` models a
dispatch that never returns (child never terminates). -/
def chrish_loop (env : Env) (lines : List String) (w : World) (args : PtrSt) :
    Option LoopRes :=
  match lines with
  | [] =>
    let w1 := (w.outW "> ").outW "-1\n"
    some ⟨.endOfInput, 0, w1, args.freeOk⟩
  | line :: rest =>
    let w1 := (w.outW "> ").outW (toString line.length ++ "\n")
    let p := chrish_split_line line w1
    match chrish_execute env p.1 p.2 with
    | none => none
    | some (status, w3) =>
      if status ≠ 0 then
        match chrish_loop env rest w3 PtrSt.freed with
        | none => none
        | some res => some res
      else
        some ⟨.exitBuiltin, 0, w3, true⟩

/-- Result of `chrish_split_line` when allocation can fail: either the token
vector together with the final capacity of the backing array, or the abort
path — the diagnostic written to stderr and the process exit code. -/
inductive SplitRes where
  | ok (tokens : List String) (bufsize : Nat)
  | abortAlloc (diag : String) (code : Nat)
deriving Repr, DecidableEq

/-- `#define CHRISH_TOK_BUFSIZE 64`. -/
def CHRISH_TOK_BUFSIZE : Nat := 64

/-- The storing loop of `chrish_split_line` (src/chrish.c:169-186) under an
allocation oracle `alloc` (can a buffer of the given element count be
obtained?): store each token at `position`, increment, and when `position`
reaches `bufsize` grow the buffer by `CHRISH_TOK_BUFSIZE`; a failed growth
writes the allocation diagnostic and exits with `EXIT_FAILURE`. -/
def splitGo (alloc : Nat → Bool) : List String → Nat → Nat → List String → SplitRes
  | [], _, bufsize, acc => .ok acc.reverse bufsize
  | t :: ts, position, bufsize, acc =>
    if bufsize ≤ position + 1 then
      if alloc (bufsize + CHRISH_TOK_BUFSIZE) then
        splitGo alloc ts (position + 1) (bufsize + CHRISH_TOK_BUFSIZE) (t :: acc)
      else .abortAlloc "chrish: allocation error\n" 1
    else splitGo alloc ts (position + 1) bufsize (t :: acc)

/-- `chrish_split_line` (src/chrish.c:156-190) with its allocation behaviour
made explicit: the initial `malloc` of `CHRISH_TOK_BUFSIZE` pointers, then
the token-storing loop with on-demand growth. -/
def chrish_split_line_alloc (alloc : Nat → Bool) (line : String) : SplitRes :=
  if alloc CHRISH_TOK_BUFSIZE then
    splitGo alloc ((strtokAll line.data).map (fun cs => String.mk cs))
      0 CHRISH_TOK_BUFSIZE []
  else .abortAlloc "chrish: allocation error\n" 1

/-- A concrete world for witnesses: root directory, nothing written yet. -/
def w0 : World := ⟨"/", [], []⟩

/-- A concrete environment for witnesses: every `chdir` fails with ENOENT
text, `fork` succeeds, `execvp` succeeds, and the child exits at once. -/
def env0 : Env :=
  ⟨fun _ => Except.error "No such file or directory",
   ⟨false, "", none, [WaitStatus.exited 0]⟩⟩

/-- A line of 64 one-character words: the smallest token count that makes
the storing loop of `chrish_split_line` request a growth of its backing
array (to 128 slots) beyond the initial `CHRISH_TOK_BUFSIZE`. -/
def line64 : String :=
  "x x x x x x x x x x x x x x x x x x x x x x x x x x x x x x x x x x x x x x x x x x x x x x x x x x x x x x x x x x x x x x x x "

/-- An input line shape used to specify the tokenizer: a leading delimiter
run, then words each followed by a delimiter run. `glue` flattens the
word/gap pairs back into the character sequence they came from. -/
def glue : List (List Char × List Char) → List Char
  | [] => []
  | p :: rest => p.1 ++ (p.2 ++ glue rest)

/-- `(l.dropWhile p)` never gets longer than `l`. -/
theorem length_dropWhile_le' (p : α → Bool) (l : List α) :
    (l.dropWhile p).length ≤ l.length := by
  induction l with
  | nil => simp
  | cons a l ih =>
    by_cases h : p a
    · simp only [List.dropWhile_cons_of_pos h]
      exact Nat.le_succ_of_le ih
    · simp [List.dropWhile_cons_of_neg h]

/-- The head of `l.dropWhile p` fails `p`. -/
theorem dropWhile_head_false (p : α → Bool) (l : List α) (c : α) (cs : List α)
    (h : l.dropWhile p = c :: cs) : p c = false := by
  induction l with
  | nil => simp at h
  | cons a l ih =>
    by_cases hp : p a
    · rw [List.dropWhile_cons_of_pos hp] at h
      exact ih h
    · rw [List.dropWhile_cons_of_neg hp] at h
      cases h
      exact Bool.of_not_eq_true hp

/-- The remainder handed to the next `strtok` round is strictly shorter than
a sequence whose leading delimiters have already produced a token head. -/
theorem strtok_rest_lt (s : List Char) (c : Char) (cs : List Char)
    (h : s.dropWhile isDelim = c :: cs) :
    ((c :: cs).dropWhile (fun x => !isDelim x)).length < s.length := by
  have hc : isDelim c = false := dropWhile_head_false isDelim s c cs h
  have h1 : (c :: cs).dropWhile (fun x => !isDelim x) =
      cs.dropWhile (fun x => !isDelim x) := by
    apply List.dropWhile_cons_of_pos
    simp [hc]
  calc ((c :: cs).dropWhile (fun x => !isDelim x)).length
      = (cs.dropWhile (fun x => !isDelim x)).length := by rw [h1]
    _ ≤ cs.length := length_dropWhile_le' _ _
    _ < (c :: cs).length := Nat.lt_succ_self _
    _ ≤ s.length := h ▸ length_dropWhile_le' isDelim s

/-- Above `length`, the amount of fuel does not matter. -/
theorem strtokGo_fuel (fuel : Nat) (s : List Char) (h : s.length < fuel) :
    strtokGo fuel s = strtokGo (s.length + 1) s := by
  induction fuel using Nat.strong_induction_on generalizing s with
  | _ fuel ih =>
    match fuel, h with
    | Nat.succ fuel, h =>
      rw [strtokGo, strtokGo]
      cases hd : s.dropWhile isDelim with
      | nil => rfl
      | cons c cs =>
        have hlt := strtok_rest_lt s c cs hd
        have e1 := ih fuel (Nat.lt_succ_self _)
          ((c :: cs).dropWhile (fun x => !isDelim x))
          (Nat.lt_of_lt_of_le hlt (Nat.le_of_lt_succ h))
        have e2 := ih s.length h
          ((c :: cs).dropWhile (fun x => !isDelim x)) hlt
        simp only [e1, e2]

/-- Unfolding equation for `strtokAll` in terms of itself. -/
theorem strtokAll_eq (s : List Char) :
    strtokAll s =
      match s.dropWhile isDelim with
      | [] => []
      | c :: cs =>
        ((c :: cs).takeWhile (fun x => !isDelim x)) ::
          strtokAll ((c :: cs).dropWhile (fun x => !isDelim x)) := by
  show strtokGo (s.length + 1) s = _
  rw [strtokGo]
  cases hd : s.dropWhile isDelim with
  | nil => rfl
  | cons c cs =>
    have hlt := strtok_rest_lt s c cs hd
    simp only [strtokGo_fuel s.length _ hlt]
    rfl

/-- `takeWhile` passes over a block whose members all satisfy `p`. -/
theorem takeWhile_append_all (p : α → Bool) (a b : List α)
    (h : ∀ c ∈ a, p c = true) :
    (a ++ b).takeWhile p = a ++ b.takeWhile p := by
  induction a with
  | nil => simp
  | cons x xs ih =>
    have hx : p x = true := h x (List.mem_cons_self x xs)
    simp only [List.cons_append, List.takeWhile_cons_of_pos hx]
    rw [ih (fun c hc => h c (List.mem_cons_of_mem x hc))]

/-- `dropWhile` consumes a block whose members all satisfy `p`. -/
theorem dropWhile_append_all (p : α → Bool) (a b : List α)
    (h : ∀ c ∈ a, p c = true) :
    (a ++ b).dropWhile p = b.dropWhile p := by
  induction a with
  | nil => simp
  | cons x xs ih =>
    have hx : p x = true := h x (List.mem_cons_self x xs)
    simp only [List.cons_append, List.dropWhile_cons_of_pos hx]
    exact ih (fun c hc => h c (List.mem_cons_of_mem x hc))

/-- Every token `strtok` produces is non-empty and contains no delimiter
(bounded-length induction along the rounds of the scan). -/
theorem strtok_tokens_aux (n : Nat) :
    ∀ s : List Char, s.length ≤ n →
      ∀ t ∈ strtokAll s, t ≠ [] ∧ ∀ c ∈ t, isDelim c = false := by
  induction n with
  | zero =>
    intro s hs
    have : s = [] := List.length_eq_zero.mp (Nat.le_zero.mp hs)
    subst this
    intro t ht
    rw [strtokAll_eq] at ht
    simp at ht
  | succ n ih =>
    intro s hs t ht
    rw [strtokAll_eq] at ht
    cases hd : s.dropWhile isDelim with
    | nil => rw [hd] at ht; simp at ht
    | cons c cs =>
      rw [hd] at ht
      simp only [List.mem_cons] at ht
      have hc : isDelim c = false := dropWhile_head_false isDelim s c cs hd
      cases ht with
      | inl h1 =>
        subst h1
        constructor
        · rw [List.takeWhile_cons_of_pos (by simp [hc])]
          exact List.cons_ne_nil _ _
        · intro x hx
          have := List.mem_takeWhile_imp hx
          simpa using this
      | inr h2 =>
        have hlt := strtok_rest_lt s c cs hd
        exact ih ((c :: cs).dropWhile (fun x => !isDelim x))
          (Nat.le_of_lt_succ (Nat.lt_of_lt_of_le hlt hs)) t h2

/-- A sequence made of delimiters only yields no token at all. -/
theorem strtok_all_delim (s : List Char) (h : ∀ c ∈ s, isDelim c = true) :
    strtokAll s = [] := by
  rw [strtokAll_eq]
  have hnil : s.dropWhile isDelim = [] := List.dropWhile_eq_nil_iff.mpr h
  rw [hnil]

/-- On a line shaped as a leading delimiter run followed by N words with
delimiter runs after them (the run after each word except the last being
non-empty), `strtok` recovers exactly the N words, in order. -/
theorem strtok_glue (ps : List (List Char × List Char)) :
    ∀ lead : List Char,
      (∀ c ∈ lead, isDelim c = true) →
      (∀ p ∈ ps, p.1 ≠ []) →
      (∀ p ∈ ps, ∀ c ∈ p.1, isDelim c = false) →
      (∀ p ∈ ps, ∀ c ∈ p.2, isDelim c = true) →
      (∀ i : Nat, i + 1 < ps.length → (ps.getD i ([], [])).2 ≠ []) →
      strtokAll (lead ++ glue ps) = ps.map Prod.fst := by
  induction ps with
  | nil =>
    intro lead hlead _ _ _ _
    rw [glue, List.append_nil, strtok_all_delim lead hlead, List.map_nil]
  | cons p rest ih =>
    intro lead hlead hw hwd hg hsep
    obtain ⟨t, g⟩ := p
    have ht : t ≠ [] := hw (t, g) (List.mem_cons_self _ _)
    have htd : ∀ c ∈ t, isDelim c = false :=
      hwd (t, g) (List.mem_cons_self _ _)
    have hgd : ∀ c ∈ g, isDelim c = true :=
      hg (t, g) (List.mem_cons_self _ _)
    obtain ⟨c, t', rfl⟩ : ∃ c t', t = c :: t' := by
      cases t with
      | nil => exact absurd rfl ht
      | cons c t' => exact ⟨c, t', rfl⟩
    -- the tail after the gap `g` is empty whenever `g` is empty
    have hgtail : g = [] → rest = [] := by
      intro hge
      cases rest with
      | nil => rfl
      | cons q qs =>
        have := hsep 0 (by simp)
        simp [hge] at this
    have hc : isDelim c = false := htd c (List.mem_cons_self _ _)
    -- the scrutinee of one strtok round
    have hscrut : (lead ++ glue ((c :: t', g) :: rest)).dropWhile isDelim =
        c :: (t' ++ (g ++ glue rest)) := by
      rw [glue, dropWhile_append_all isDelim lead _ hlead]
      simp only [List.cons_append]
      rw [List.dropWhile_cons_of_neg (by simp [hc])]
    -- the token of this round is exactly the word
    have htake : (c :: (t' ++ (g ++ glue rest))).takeWhile
        (fun x => !isDelim x) = c :: t' := by
      have h1 : ∀ x ∈ c :: t', (fun x => !isDelim x) x = true := by
        intro x hx
        simp [htd x hx]
      have h2 : ((g ++ glue rest).takeWhile (fun x => !isDelim x)) = [] := by
        cases g with
        | nil =>
          rw [hgtail rfl]
          rfl
        | cons d g' =>
          have hd : isDelim d = true := hgd d (List.mem_cons_self _ _)
          simp only [List.cons_append]
          rw [List.takeWhile_cons_of_neg (by simp [hd])]
      calc (c :: (t' ++ (g ++ glue rest))).takeWhile (fun x => !isDelim x)
          = ((c :: t') ++ (g ++ glue rest)).takeWhile (fun x => !isDelim x) := by
            simp
        _ = (c :: t') ++ ((g ++ glue rest)).takeWhile (fun x => !isDelim x) :=
            takeWhile_append_all _ _ _ h1
        _ = c :: t' := by rw [h2, List.append_nil]
    -- the rest of the scan starts at the gap
    have hdrop : (c :: (t' ++ (g ++ glue rest))).dropWhile
        (fun x => !isDelim x) = g ++ glue rest := by
      have h1 : ∀ x ∈ c :: t', (fun x => !isDelim x) x = true := by
        intro x hx
        simp [htd x hx]
      calc (c :: (t' ++ (g ++ glue rest))).dropWhile (fun x => !isDelim x)
          = ((c :: t') ++ (g ++ glue rest)).dropWhile (fun x => !isDelim x) := by
            simp
        _ = ((g ++ glue rest)).dropWhile (fun x => !isDelim x) :=
            dropWhile_append_all _ _ _ h1
        _ = g ++ glue rest := by
            cases g with
            | nil =>
              rw [hgtail rfl]
              rfl
            | cons d g' =>
              have hd : isDelim d = true := hgd d (List.mem_cons_self _ _)
              simp only [List.cons_append]
              rw [List.dropWhile_cons_of_neg (by simp [hd])]
    rw [strtokAll_eq, hscrut]
    simp only [htake, hdrop, List.map_cons]
    congr 1
    exact ih g hgd
      (fun q hq => hw q (List.mem_cons_of_mem _ hq))
      (fun q hq => hwd q (List.mem_cons_of_mem _ hq))
      (fun q hq => hg q (List.mem_cons_of_mem _ hq))
      (fun i hi => hsep (i + 1) (by simpa using Nat.succ_lt_succ hi))

/-- C2: tokenization splits on exactly the delimiter set
`{space, tab, carriage-return, newline, bell}`; every produced token is
non-empty and free of delimiters; a line consisting only of delimiters
yields an empty vector; and a line made of N delimiter-separated words (a
leading delimiter run, then each word followed by a delimiter run, the run
being non-empty between consecutive words) yields exactly those N words as
tokens, in their original order. -/
theorem chrish_split_line_spec (line : String) (w : World) :
    (∀ c : Char,
      isDelim c = true ↔ (c = ' ' ∨ c = '\t' ∨ c = '\r' ∨ c = '\n' ∨ c = '\x07'))
  ∧ (∀ t ∈ (chrish_split_line line w).1, t ≠ "")
  ∧ (∀ t ∈ (chrish_split_line line w).1, ∀ c ∈ t.data, isDelim c = false)
  ∧ ((∀ c ∈ line.data, isDelim c = true) → (chrish_split_line line w).1 = [])
  ∧ (∀ (lead : List Char) (ps : List (List Char × List Char)),
      (∀ c ∈ lead, isDelim c = true) →
      (∀ p ∈ ps, p.1 ≠ []) →
      (∀ p ∈ ps, ∀ c ∈ p.1, isDelim c = false) →
      (∀ p ∈ ps, ∀ c ∈ p.2, isDelim c = true) →
      (∀ i : Nat, i + 1 < ps.length → (ps.getD i ([], [])).2 ≠ []) →
      line.data = lead ++ glue ps →
      (chrish_split_line line w).1 = ps.map (fun p => String.mk p.1)) := by
  refine ⟨?_, ?_, ?_, ?_, ?_⟩
  · intro c
    simp [isDelim, CHRISH_TOK_DELIM, List.contains_cons]
  · intro t ht
    simp only [chrish_split_line, List.mem_map] at ht
    obtain ⟨cs, hcs, rfl⟩ := ht
    have := (strtok_tokens_aux line.data.length line.data le_rfl cs hcs).1
    simpa [String.ext_iff] using this
  · intro t ht c hc
    simp only [chrish_split_line, List.mem_map] at ht
    obtain ⟨cs, hcs, rfl⟩ := ht
    exact (strtok_tokens_aux line.data.length line.data le_rfl cs hcs).2 c hc
  · intro h
    simp only [chrish_split_line]
    rw [strtok_all_delim line.data h, List.map_nil]
  · intro lead ps hlead hw hwd hg hsep hline
    simp only [chrish_split_line]
    rw [hline, strtok_glue ps lead hlead hw hwd hg hsep, List.map_map]
    rfl

/-- Witness for C2 on the line `" ab c\n"`: a leading space, the word `ab`
followed by a space, the word `c` followed by a newline — the tokenizer
yields exactly `["ab", "c"]`. -/
theorem chrish_split_line_spec_witness :
    (chrish_split_line " ab c\n" w0).1 = ["ab", "c"] := by
  have h := (chrish_split_line_spec " ab c\n" w0).2.2.2.2
    [' '] [(['a', 'b'], [' ']), (['c'], ['\n'])]
    (by decide) (by decide) (by decide) (by decide)
    (by
      intro i hi
      have h2 : i + 1 < 2 := by simpa using hi
      have h0 : i = 0 := by omega
      subst h0
      decide)
    (by decide)
  simpa using h

/-- `chrish_cd` returns 1 on every path. -/
theorem chrish_cd_fst (chdir : String → Except String String)
    (args : List String) (w : World) : (chrish_cd chdir args w).1 = 1 := by
  unfold chrish_cd
  split
  · rfl
  · split <;> rfl

/-- `chrish_help` returns 1 on every path. -/
theorem chrish_help_fst (args : List String) (w : World) :
    (chrish_help args w).1 = 1 := rfl

/-- When `chrish_launch` returns, its signal is 1. -/
theorem chrish_launch_fst (m : LaunchModel) (args : List String) (w : World)
    (r : Nat) (w2 : World) (h : chrish_launch m args w = some (r, w2)) :
    r = 1 := by
  unfold chrish_launch at h
  by_cases hf : m.forkFails
  · rw [if_pos hf] at h
    cases h
    rfl
  · rw [if_neg hf] at h
    cases hwl : waitLoop m.childEvents with
    | none =>
      rw [hwl] at h
      have h2 : (none : Option (Nat × World)) = some (r, w2) := h
      cases h2
    | some s =>
      rw [hwl] at h
      have h2 : some ((1 : Nat), w) = some (r, w2) := h
      cases h2
      rfl

/-- The dispatch loop of `chrish_execute` over the three-entry tables, as a
chain of exact-match tests in table order. -/
theorem chrish_execute_cases (env : Env) (a0 : String) (rest : List String)
    (w : World) :
    chrish_execute env (a0 :: rest) w =
      if a0 = "cd" then some (chrish_cd env.chdir (a0 :: rest) w)
      else if a0 = "help" then some (chrish_help (a0 :: rest) w)
      else if a0 = "exit" then some (chrish_exit (a0 :: rest) w)
      else chrish_launch env.launch (a0 :: rest) w := rfl

/-- C1: `chrish_execute` yields exactly one continuation signal, which is 0
(Terminate) precisely when the vector is non-empty and its first element is
the exact string `"exit"`; on the empty vector it returns 1 immediately with
the world untouched; every returned signal is 0 or 1; and whenever the
launch oracle lets an external wait finish (or fork fail), a signal is in
fact returned. -/
theorem chrish_execute_spec (env : Env) (args : List String) (w : World) :
    chrish_execute env [] w = some (1, w)
  ∧ (∀ r w2, chrish_execute env args w = some (r, w2) →
      (r = 0 ↔ args.head? = some "exit"))
  ∧ (∀ r w2, chrish_execute env args w = some (r, w2) → r = 0 ∨ r = 1)
  ∧ ((env.launch.forkFails = true ∨ (waitLoop env.launch.childEvents).isSome = true) →
      (chrish_execute env args w).isSome = true) := by
  refine ⟨rfl, ?_, ?_, ?_⟩
  · intro r w2 hr
    cases args with
    | nil =>
      simp only [chrish_execute, Option.some.injEq, Prod.mk.injEq] at hr
      rw [← hr.1]
      simp
    | cons a0 rest =>
      rw [chrish_execute_cases] at hr
      by_cases h1 : a0 = "cd"
      · rw [if_pos h1] at hr
        simp only [Option.some.injEq, Prod.ext_iff] at hr
        rw [← hr.1, chrish_cd_fst]
        subst h1
        simp
      · rw [if_neg h1] at hr
        by_cases h2 : a0 = "help"
        · rw [if_pos h2] at hr
          simp only [Option.some.injEq, Prod.ext_iff] at hr
          rw [← hr.1, chrish_help_fst]
          subst h2
          simp
        · rw [if_neg h2] at hr
          by_cases h3 : a0 = "exit"
          · rw [if_pos h3] at hr
            simp only [Option.some.injEq, Prod.ext_iff] at hr
            rw [← hr.1]
            subst h3
            simp [chrish_exit]
          · rw [if_neg h3] at hr
            have := chrish_launch_fst env.launch (a0 :: rest) w r w2 hr
            subst this
            simp [h3]
  · intro r w2 hr
    cases args with
    | nil =>
      simp only [chrish_execute, Option.some.injEq, Prod.mk.injEq] at hr
      right
      exact hr.1.symm
    | cons a0 rest =>
      rw [chrish_execute_cases] at hr
      by_cases h1 : a0 = "cd"
      · rw [if_pos h1] at hr
        simp only [Option.some.injEq, Prod.ext_iff] at hr
        right
        rw [← hr.1, chrish_cd_fst]
      · rw [if_neg h1] at hr
        by_cases h2 : a0 = "help"
        · rw [if_pos h2] at hr
          simp only [Option.some.injEq, Prod.ext_iff] at hr
          right
          rw [← hr.1, chrish_help_fst]
        · rw [if_neg h2] at hr
          by_cases h3 : a0 = "exit"
          · rw [if_pos h3] at hr
            simp only [Option.some.injEq, Prod.ext_iff] at hr
            left
            rw [← hr.1]
            rfl
          · rw [if_neg h3] at hr
            right
            exact chrish_launch_fst env.launch (a0 :: rest) w r w2 hr
  · intro hlaunch
    have hl : (chrish_launch env.launch args w).isSome = true := by
      unfold chrish_launch
      by_cases hf : env.launch.forkFails
      · rw [if_pos hf]
        rfl
      · rw [if_neg hf]
        cases hwl : waitLoop env.launch.childEvents with
        | none =>
          cases hlaunch with
          | inl h => exact absurd h hf
          | inr h => rw [hwl] at h; simp at h
        | some s => rfl
    cases args with
    | nil => rfl
    | cons a0 rest =>
      rw [chrish_execute_cases]
      by_cases h1 : a0 = "cd"
      · rw [if_pos h1]; rfl
      · rw [if_neg h1]
        by_cases h2 : a0 = "help"
        · rw [if_pos h2]; rfl
        · rw [if_neg h2]
          by_cases h3 : a0 = "exit"
          · rw [if_pos h3]; rfl
          · rw [if_neg h3]
            exact hl

/-- Witness for C1: `["exit", "now"]` terminates (signal 0), `["ls"]` with a
terminating child continues (signal 1), and the empty vector continues. -/
theorem chrish_execute_spec_witness :
    ((0 : Nat) = 0 ↔ (["exit", "now"] : List String).head? = some "exit")
  ∧ ((1 : Nat) = 0 ↔ (["ls"] : List String).head? = some "exit")
  ∧ ((chrish_execute env0 ["ls"] w0).isSome = true) :=
  ⟨(chrish_execute_spec env0 ["exit", "now"] w0).2.1 0 w0 (by decide),
   (chrish_execute_spec env0 ["ls"] w0).2.1 1 w0 (by decide),
   (chrish_execute_spec env0 ["ls"] w0).2.2.2 (Or.inr (by decide))⟩

/-- C3: the `cd` builtin with no argument after the command name writes the
usage message to stderr and leaves the working directory unchanged; with a
path argument it attempts `chdir`, and on failure writes the OS error to
stderr with the working directory unchanged; on success the working
directory becomes the target; it always returns 1. -/
theorem chrish_cd_spec (chdir : String → Except String String)
    (args : List String) (w : World) :
    (chrish_cd chdir args w).1 = 1
  ∧ (args.get? 1 = none →
      chrish_cd chdir args w =
        (1, w.errW "chrish: expected argument to \"cd\"\n"))
  ∧ (∀ d msg, args.get? 1 = some d → chdir d = Except.error msg →
      chrish_cd chdir args w = (1, w.errW ("chrish: " ++ msg ++ "\n")))
  ∧ (∀ d c, args.get? 1 = some d → chdir d = Except.ok c →
      chrish_cd chdir args w = (1, w.setCwd c)) := by
  refine ⟨chrish_cd_fst chdir args w, ?_, ?_, ?_⟩
  · intro h
    unfold chrish_cd
    rw [h]
  · intro d msg h hc
    unfold chrish_cd
    rw [h]
    show (match chdir d with
      | Except.ok c => (1, w.setCwd c)
      | Except.error m2 => (1, w.errW ("chrish: " ++ m2 ++ "\n"))) = _
    rw [hc]
  · intro d c h hc
    unfold chrish_cd
    rw [h]
    show (match chdir d with
      | Except.ok c2 => (1, w.setCwd c2)
      | Except.error m2 => (1, w.errW ("chrish: " ++ m2 ++ "\n"))) = _
    rw [hc]

/-- Witness for C3: the three branches at concrete inputs — `cd` alone, a
failing `chdir`, and a successful `chdir`. Note that `errW` never touches
`cwd`, so the working directory is unchanged in the first two cases. -/
theorem chrish_cd_spec_witness :
    chrish_cd (fun _ => Except.error "E") ["cd"] w0 =
      (1, w0.errW "chrish: expected argument to \"cd\"\n")
  ∧ chrish_cd (fun _ => Except.error "E") ["cd", "/nope"] w0 =
      (1, w0.errW "chrish: E\n")
  ∧ chrish_cd (fun _ => Except.ok "/tmp") ["cd", "/tmp"] w0 =
      (1, w0.setCwd "/tmp") :=
  ⟨(chrish_cd_spec (fun _ => Except.error "E") ["cd"] w0).2.1 rfl,
   (chrish_cd_spec (fun _ => Except.error "E") ["cd", "/nope"] w0).2.2.1
     "/nope" "E" rfl rfl,
   (chrish_cd_spec (fun _ => Except.ok "/tmp") ["cd", "/tmp"] w0).2.2.2
     "/tmp" "/tmp" rfl rfl⟩

/-- C7: the `help` builtin ignores its arguments (same result for any two
argument vectors), returns 1, and appends to stdout exactly the banner, one
line per builtin name in registration order — `cd`, `help`, `exit` — and
the closing note; and those names are exactly the registry `builtin_str`. -/
theorem chrish_help_spec (args args2 : List String) (w : World) :
    (chrish_help args w).1 = 1
  ∧ chrish_help args w = chrish_help args2 w
  ∧ (chrish_help args w).2.stdoutS = w.stdoutS ++
      ["Stephen Brennan's CHRISH\n",
       "Type program names and arguments, and hit enter.\n",
       "The following are built in:\n",
       "  cd\n", "  help\n", "  exit\n",
       "Use the man command for information on other programs.\n"]
  ∧ builtin_str = ["cd", "help", "exit"] := by
  refine ⟨rfl, rfl, ?_, rfl⟩
  simp [chrish_help, chrish_num_builtins, builtin_str, World.outW,
    List.range_succ]

/-- The wait loop stops only at a status that is a true exit or a signal
termination. -/
theorem waitLoop_terminal (evts : List WaitStatus) (s : WaitStatus)
    (h : waitLoop evts = some s) : (WIFEXITED s || WIFSIGNALED s) = true := by
  induction evts with
  | nil => simp [waitLoop] at h
  | cons a rest ih =>
    unfold waitLoop at h
    by_cases ha : (WIFEXITED a || WIFSIGNALED a) = true
    · rw [if_pos ha] at h
      cases h
      exact ha
    · rw [if_neg ha] at h
      exact ih h

/-- If the reported statuses contain a terminal one, the wait loop stops. -/
theorem waitLoop_some_of_mem (evts : List WaitStatus) (s : WaitStatus)
    (hs : s ∈ evts) (hterm : (WIFEXITED s || WIFSIGNALED s) = true) :
    (waitLoop evts).isSome = true := by
  induction evts with
  | nil => simp at hs
  | cons a rest ih =>
    unfold waitLoop
    by_cases ha : (WIFEXITED a || WIFSIGNALED a) = true
    · rw [if_pos ha]
      rfl
    · rw [if_neg ha]
      cases List.mem_cons.mp hs with
      | inl h1 =>
        subst h1
        exact absurd hterm ha
      | inr h2 => exact ih h2

/-- If every reported status is a stop (no exit, no signal termination), the
wait loop never returns: the parent keeps waiting. -/
theorem waitLoop_none_of_all (evts : List WaitStatus)
    (h : ∀ s ∈ evts, WIFEXITED s = false ∧ WIFSIGNALED s = false) :
    waitLoop evts = none := by
  induction evts with
  | nil => rfl
  | cons a rest ih =>
    unfold waitLoop
    have ha := h a (List.mem_cons_self _ _)
    rw [if_neg (by simp [ha.1, ha.2])]
    exact ih (fun s hs => h s (List.mem_cons_of_mem _ hs))

/-- C4: the process launcher returns 1 whenever it returns, for every
argument vector and every outcome: a fork failure is reported on stderr
with no `waitpid` performed; a failed program-image replacement makes the
child report the error and exit with failure status 1 while the parent's
wait — fed the child's exit event — still completes; and the wait ends only
on a true exit or signal-termination status, continuing through stopped
ones. -/
theorem chrish_launch_spec (m : LaunchModel) (args : List String) (w : World) :
    (∀ r w2, chrish_launch m args w = some (r, w2) → r = 1)
  ∧ (m.forkFails = true →
      chrish_launch m args w =
        some (1, w.errW ("chrish: " ++ m.forkErr ++ "\n"))
      ∧ launchWaitCalls m = 0)
  ∧ (∀ msg, m.execErr = some msg →
      childRun m = (["chrish: " ++ msg ++ "\n"], some 1))
  ∧ (m.forkFails = false →
      (∃ s ∈ m.childEvents, (WIFEXITED s || WIFSIGNALED s) = true) →
      chrish_launch m args w = some (1, w))
  ∧ (∀ s, waitLoop m.childEvents = some s →
      (WIFEXITED s || WIFSIGNALED s) = true)
  ∧ ((∀ s ∈ m.childEvents, WIFEXITED s = false ∧ WIFSIGNALED s = false) →
      waitLoop m.childEvents = none) := by
  refine ⟨?_, ?_, ?_, ?_, ?_, ?_⟩
  · exact fun r w2 h => chrish_launch_fst m args w r w2 h
  · intro hf
    constructor
    · unfold chrish_launch
      rw [if_pos hf]
    · unfold launchWaitCalls
      rw [if_pos hf]
  · intro msg hmsg
    unfold childRun
    rw [hmsg]
  · intro hf hterm
    obtain ⟨s, hs, hst⟩ := hterm
    have hsome := waitLoop_some_of_mem m.childEvents s hs hst
    unfold chrish_launch
    rw [if_neg (by simp [hf])]
    cases hwl : waitLoop m.childEvents with
    | none => rw [hwl] at hsome; simp at hsome
    | some s2 => rfl
  · exact fun s h => waitLoop_terminal m.childEvents s h
  · exact fun h => waitLoop_none_of_all m.childEvents h

/-- Witness for C4 at concrete episodes: a failing fork (reported, zero
`waitpid` calls), a failing `execvp` (child writes the error and exits 1),
a stopped-then-exited child (the wait completes and the launcher returns 1
with the world untouched), and an only-ever-stopped child (the wait never
ends). -/
theorem chrish_launch_spec_witness :
    (chrish_launch ⟨true, "E", none, []⟩ ["x"] w0 =
        some (1, w0.errW "chrish: E\n")
      ∧ launchWaitCalls ⟨true, "E", none, []⟩ = 0)
  ∧ childRun ⟨false, "", some "F", [WaitStatus.stopped 19, WaitStatus.exited 1]⟩ =
      (["chrish: F\n"], some 1)
  ∧ chrish_launch ⟨false, "", some "F",
      [WaitStatus.stopped 19, WaitStatus.exited 1]⟩ ["x"] w0 = some (1, w0)
  ∧ waitLoop [WaitStatus.stopped 19, WaitStatus.stopped 20] = none :=
  ⟨(chrish_launch_spec ⟨true, "E", none, []⟩ ["x"] w0).2.1 rfl,
   (chrish_launch_spec ⟨false, "", some "F",
      [WaitStatus.stopped 19, WaitStatus.exited 1]⟩ ["x"] w0).2.2.1 "F" rfl,
   (chrish_launch_spec ⟨false, "", some "F",
      [WaitStatus.stopped 19, WaitStatus.exited 1]⟩ ["x"] w0).2.2.2.1 rfl
     ⟨WaitStatus.exited 1, by decide, by decide⟩,
   (chrish_launch_spec ⟨false, "", none,
      [WaitStatus.stopped 19, WaitStatus.stopped 20]⟩ ["x"] w0).2.2.2.2.2
     (by decide)⟩

/-- C5: end of input at the prompt stops the loop at once — no dispatch
happens, the world only gains the prompt and the `getline` echo — and the
process exit code is 0; moreover every way `chrish_loop` stops yields exit
code 0 (end of input and the `exit` builtin are observably the same status),
and the `cd` / `help` handlers never produce the terminating signal. -/
theorem chrish_loop_spec (env : Env) (lines : List String) (w : World)
    (st : PtrSt) :
    (∃ res, chrish_loop env [] w st = some res
      ∧ res.via = ExitVia.endOfInput ∧ res.code = 0
      ∧ res.world = (w.outW "> ").outW "-1\n")
  ∧ (∀ res, chrish_loop env lines w st = some res → res.code = 0)
  ∧ (∀ a w2, (chrish_cd env.chdir a w2).1 ≠ 0 ∧ (chrish_help a w2).1 ≠ 0) := by
  refine ⟨⟨⟨ExitVia.endOfInput, 0, (w.outW "> ").outW "-1\n", st.freeOk⟩,
    rfl, rfl, rfl, rfl⟩, ?_, ?_⟩
  · induction lines generalizing w st with
    | nil =>
      intro res hres
      have h2 : (⟨ExitVia.endOfInput, 0, (w.outW "> ").outW "-1\n",
          st.freeOk⟩ : LoopRes) = res := Option.some.inj hres
      rw [← h2]
    | cons line rest ih =>
      intro res hres
      simp only [chrish_loop] at hres
      split at hres
      · exact Option.noConfusion hres
      · split at hres
        · split at hres
          · exact Option.noConfusion hres
          · cases hres
            apply ih
            assumption
        · cases hres
          rfl
  · intro a w2
    constructor
    · rw [chrish_cd_fst]
      decide
    · rw [chrish_help_fst]
      decide

/-- Witness for C5: running the loop on the single line `"exit\n"` stops via
the `exit` builtin with exit code 0. -/
theorem chrish_loop_spec_witness :
    (⟨ExitVia.exitBuiltin, 0, ⟨"/", ["> ", "5\n", "1\n"], []⟩,
      true⟩ : LoopRes).code = 0 :=
  (chrish_loop_spec env0 ["exit\n"] w0 PtrSt.uninit).2.1
    ⟨ExitVia.exitBuiltin, 0, ⟨"/", ["> ", "5\n", "1\n"], []⟩, true⟩ (by decide)

/-- With every allocation succeeding, the storing loop keeps all tokens in
order and finishes with strictly more capacity than stored tokens. -/
theorem splitGo_ok (alloc : Nat → Bool) (hall : ∀ n, alloc n = true) :
    ∀ (ts : List String) (pos bufsize : Nat) (acc : List String),
      pos < bufsize →
      ∃ b, splitGo alloc ts pos bufsize acc = SplitRes.ok (acc.reverse ++ ts) b
        ∧ pos + ts.length < b := by
  intro ts
  induction ts with
  | nil =>
    intro pos bufsize acc hlt
    exact ⟨bufsize, by simp [splitGo], by simpa using hlt⟩
  | cons t ts ih =>
    intro pos bufsize acc hlt
    unfold splitGo
    by_cases hgrow : bufsize ≤ pos + 1
    · rw [if_pos hgrow, if_pos (hall _)]
      obtain ⟨b, hb, hblt⟩ := ih (pos + 1) (bufsize + CHRISH_TOK_BUFSIZE)
        (t :: acc) (by unfold CHRISH_TOK_BUFSIZE; omega)
      refine ⟨b, ?_, by simpa [Nat.add_comm, Nat.add_assoc,
        Nat.add_left_comm] using hblt⟩
      rw [hb]
      simp
    · rw [if_neg hgrow]
      obtain ⟨b, hb, hblt⟩ := ih (pos + 1) bufsize (t :: acc) (by omega)
      refine ⟨b, ?_, by simpa [Nat.add_comm, Nat.add_assoc,
        Nat.add_left_comm] using hblt⟩
      rw [hb]
      simp

/-- The storing loop has exactly two outcomes: the token vector, or the
allocation-error abort with diagnostic and exit code 1. -/
theorem splitGo_shape (alloc : Nat → Bool) :
    ∀ (ts : List String) (pos bufsize : Nat) (acc : List String),
      (∃ toks b, splitGo alloc ts pos bufsize acc = SplitRes.ok toks b)
      ∨ splitGo alloc ts pos bufsize acc =
          SplitRes.abortAlloc "chrish: allocation error\n" 1 := by
  intro ts
  induction ts with
  | nil =>
    intro pos bufsize acc
    exact Or.inl ⟨acc.reverse, bufsize, rfl⟩
  | cons t ts ih =>
    intro pos bufsize acc
    unfold splitGo
    by_cases hgrow : bufsize ≤ pos + 1
    · rw [if_pos hgrow]
      by_cases ha : alloc (bufsize + CHRISH_TOK_BUFSIZE) = true
      · rw [if_pos ha]
        exact ih (pos + 1) (bufsize + CHRISH_TOK_BUFSIZE) (t :: acc)
      · rw [if_neg ha]
        exact Or.inr rfl
    · rw [if_neg hgrow]
      exact ih (pos + 1) bufsize (t :: acc)

/-- Starting at position `pos` inside a live buffer of `64 * j` slots, the
storing loop aborts exactly when one of the growth allocations it requests
fails: a growth is requested each time the position reaches `64 * m` (for
`m ≥ j`, reachable iff `64 * m ≤ pos + ts.length`), asking for
`64 * (m + 1)` slots. -/
theorem splitGo_abort_iff (alloc : Nat → Bool) :
    ∀ (ts : List String) (j pos : Nat) (acc : List String),
      1 ≤ j → pos < 64 * j →
      (splitGo alloc ts pos (64 * j) acc =
          SplitRes.abortAlloc "chrish: allocation error\n" 1
        ↔ ∃ m, j ≤ m ∧ 64 * m ≤ pos + ts.length
            ∧ alloc (64 * (m + 1)) = false) := by
  intro ts
  induction ts with
  | nil =>
    intro j pos acc hj hpos
    constructor
    · intro h
      simp [splitGo] at h
    · rintro ⟨m, hjm, hm, _⟩
      simp only [List.length_nil, Nat.add_zero] at hm
      omega
  | cons t ts ih =>
    intro j pos acc hj hpos
    rw [splitGo]
    simp only [CHRISH_TOK_BUFSIZE]
    by_cases hgrow : 64 * j ≤ pos + 1
    · rw [if_pos hgrow]
      have hpos1 : pos + 1 = 64 * j := by omega
      by_cases halloc : alloc (64 * j + 64) = true
      · rw [if_pos halloc]
        have heq : 64 * j + 64 = 64 * (j + 1) := (Nat.mul_succ 64 j).symm
        rw [heq]
        rw [ih (j + 1) (pos + 1) (t :: acc) (by omega) (by omega)]
        constructor
        · rintro ⟨m, hm1, hm2, hm3⟩
          refine ⟨m, by omega, ?_, hm3⟩
          simp only [List.length_cons]
          omega
        · rintro ⟨m, hm1, hm2, hm3⟩
          have hmj : m ≠ j := by
            intro hmj
            rw [hmj, ← heq, halloc] at hm3
            exact Bool.noConfusion hm3
          refine ⟨m, by omega, ?_, hm3⟩
          simp only [List.length_cons] at hm2
          omega
      · rw [if_neg halloc]
        constructor
        · intro _
          refine ⟨j, Nat.le_refl j, ?_, ?_⟩
          · simp only [List.length_cons]
            omega
          · rw [Nat.mul_succ]
            exact Bool.of_not_eq_true halloc
        · intro _
          rfl
    · rw [if_neg hgrow]
      rw [ih j (pos + 1) (t :: acc) hj (by omega)]
      constructor
      · rintro ⟨m, hm1, hm2, hm3⟩
        refine ⟨m, hm1, ?_, hm3⟩
        simp only [List.length_cons]
        omega
      · rintro ⟨m, hm1, hm2, hm3⟩
        refine ⟨m, hm1, ?_, hm3⟩
        simp only [List.length_cons] at hm2
        omega

/-- C8: the tokenizer supports any number of tokens by growing its storage
— under an always-succeeding allocator it returns the full token vector
with room to spare (the terminating sentinel slot); the only two outcomes
are the token vector or the abort with the allocation diagnostic and
failure exit status 1; and the abort happens exactly when an allocation
fails — either the initial `CHRISH_TOK_BUFSIZE`-slot buffer, or one of the
growths by `CHRISH_TOK_BUFSIZE` the token count forces — so a failing
allocation always aborts (no recovery) and no abort occurs without one. -/
theorem chrish_split_line_alloc_spec (alloc : Nat → Bool) (line : String) :
    ((∀ n, alloc n = true) →
      ∃ b, chrish_split_line_alloc alloc line =
          SplitRes.ok ((strtokAll line.data).map (fun cs => String.mk cs)) b
        ∧ ((strtokAll line.data).map (fun cs => String.mk cs)).length < b)
  ∧ ((∃ toks b, chrish_split_line_alloc alloc line = SplitRes.ok toks b)
      ∨ chrish_split_line_alloc alloc line =
          SplitRes.abortAlloc "chrish: allocation error\n" 1)
  ∧ (chrish_split_line_alloc alloc line =
        SplitRes.abortAlloc "chrish: allocation error\n" 1
      ↔ (alloc CHRISH_TOK_BUFSIZE = false
        ∨ ∃ m, 1 ≤ m
            ∧ CHRISH_TOK_BUFSIZE * m ≤
                ((strtokAll line.data).map (fun cs => String.mk cs)).length
            ∧ alloc (CHRISH_TOK_BUFSIZE * (m + 1)) = false)) := by
  refine ⟨?_, ?_, ?_⟩
  · intro hall
    unfold chrish_split_line_alloc
    rw [if_pos (hall _)]
    obtain ⟨b, hb, hblt⟩ := splitGo_ok alloc hall
      ((strtokAll line.data).map (fun cs => String.mk cs))
      0 CHRISH_TOK_BUFSIZE [] (by unfold CHRISH_TOK_BUFSIZE; omega)
    exact ⟨b, by simpa using hb, by simpa using hblt⟩
  · unfold chrish_split_line_alloc
    by_cases h0 : alloc CHRISH_TOK_BUFSIZE = true
    · rw [if_pos h0]
      exact splitGo_shape alloc _ 0 CHRISH_TOK_BUFSIZE []
    · rw [if_neg h0]
      exact Or.inr rfl
  · unfold chrish_split_line_alloc
    simp only [CHRISH_TOK_BUFSIZE]
    by_cases h0 : alloc 64 = true
    · rw [if_pos h0]
      have h := splitGo_abort_iff alloc
        ((strtokAll line.data).map (fun cs => String.mk cs)) 1 0 []
        (Nat.le_refl 1) (by omega)
      rw [Nat.mul_one] at h
      rw [Nat.zero_add] at h
      rw [h]
      simp [h0]
    · rw [if_neg h0]
      have h0f : alloc 64 = false := Bool.of_not_eq_true h0
      simp [h0f]

set_option maxRecDepth 8192 in
/-- Witness for C8: with allocation always succeeding, tokenizing `"a b"`
yields `["a", "b"]` with capacity beyond the two tokens; with every
allocation failing, the initial allocation for `"a b"` aborts with the
diagnostic and status 1; and with an allocator that only grants up to 64
slots, the 64-token line `line64` forces a growth request to 128 slots,
which fails and aborts. -/
theorem chrish_split_line_alloc_spec_witness :
    (∃ b, chrish_split_line_alloc (fun _ => true) "a b" =
        SplitRes.ok ["a", "b"] b ∧ (2 : Nat) < b)
  ∧ chrish_split_line_alloc (fun _ => false) "a b" =
      SplitRes.abortAlloc "chrish: allocation error\n" 1
  ∧ chrish_split_line_alloc (fun n => decide (n ≤ 64)) line64 =
      SplitRes.abortAlloc "chrish: allocation error\n" 1 := by
  refine ⟨?_, ?_, ?_⟩
  · obtain ⟨b, hb, hblt⟩ :=
      (chrish_split_line_alloc_spec (fun _ => true) "a b").1 (fun _ => rfl)
    have he : (strtokAll "a b".data).map (fun cs => String.mk cs) = ["a", "b"] :=
      by decide
    have hl : ((strtokAll "a b".data).map (fun cs => String.mk cs)).length = 2 :=
      by decide
    rw [he] at hb
    rw [hl] at hblt
    exact ⟨b, hb, hblt⟩
  · exact (chrish_split_line_alloc_spec (fun _ => false) "a b").2.2.mpr
      (Or.inl rfl)
  · exact (chrish_split_line_alloc_spec (fun n => decide (n ≤ 64)) line64).2.2.mpr
      (Or.inr ⟨1, Nat.le_refl 1, by decide, by decide⟩)

/-- C10: the builtin name table and handler table have the same length,
`chrish_num_builtins` is that common length 3, every dispatch index below it
is in bounds for both tables, the zipped tables pair each name with its own
handler (`cd` with `chrish_cd`, `help` with `chrish_help`, `exit` with
`chrish_exit`), and dispatch through `chrish_execute` invokes exactly the
paired handler. (The tables are Lean constants and the C arrays are written
only at their static initialisation, so no mutation after startup exists in
the model.) -/
theorem builtin_tables_spec (env : Env) (w : World) :
    builtin_str.length = (builtin_func env).length
  ∧ chrish_num_builtins = 3
  ∧ chrish_num_builtins = builtin_str.length
  ∧ (∀ i, i < chrish_num_builtins →
      i < builtin_str.length ∧ i < (builtin_func env).length)
  ∧ builtin_str.zip (builtin_func env) =
      [("cd", fun a w2 => some (chrish_cd env.chdir a w2)),
       ("help", fun a w2 => some (chrish_help a w2)),
       ("exit", fun a w2 => some (chrish_exit a w2))]
  ∧ (∀ rest, chrish_execute env ("cd" :: rest) w =
      some (chrish_cd env.chdir ("cd" :: rest) w))
  ∧ (∀ rest, chrish_execute env ("help" :: rest) w =
      some (chrish_help ("help" :: rest) w))
  ∧ (∀ rest, chrish_execute env ("exit" :: rest) w =
      some (chrish_exit ("exit" :: rest) w)) := by
  refine ⟨rfl, rfl, rfl, fun i h => ⟨h, h⟩, rfl, ?_, ?_, ?_⟩
  · intro rest
    rw [chrish_execute_cases]
    simp
  · intro rest
    rw [chrish_execute_cases]
    simp
  · intro rest
    rw [chrish_execute_cases]
    simp

/-- Witness for C10: index 2 (the last builtin) is in bounds for both
tables. -/
theorem builtin_tables_spec_witness :
    (2 : Nat) < builtin_str.length ∧ 2 < (builtin_func env0).length :=
  (builtin_tables_spec env0 w0).2.2.2.1 2 (by decide)

/-- C6 (code defect): the tokenizer is not free of side effects and the
prompt is not the only stdout write outside builtin handlers. Splitting the
line `"ls\n"` writes the token count `"1\n"` to standard output
(src/chrish.c:188), and a loop run over the single line `"exit\n"` writes,
besides the prompt `"> "`, the `getline` return value `"5\n"`
(src/chrish.c:204) and the token count `"1\n"`. -/
theorem chrish_split_line_stdout_bug :
    (chrish_split_line "ls\n" w0).2.stdoutS = ["1\n"]
  ∧ (∃ res, chrish_loop env0 ["exit\n"] w0 PtrSt.uninit = some res
      ∧ res.world.stdoutS = ["> ", "5\n", "1\n"]) :=
  ⟨by decide,
   ⟨⟨ExitVia.exitBuiltin, 0, ⟨"/", ["> ", "5\n", "1\n"], []⟩, true⟩,
    by decide, rfl⟩⟩

/-- C9 (code defect): the end-of-input path of `chrish_loop` frees the
`args` pointer in whatever state it happens to be — indeterminate on the
very first iteration (src/chrish.c:197 declares it uninitialised,
src/chrish.c:208 frees it), already freed on any later iteration
(src/chrish.c:215 freed it before looping) — so on every run that ends by
end of input some `free` is performed on a non-live pointer. -/
theorem chrish_loop_invalid_free_bug :
    (∃ res, chrish_loop env0 [] w0 PtrSt.uninit = some res
      ∧ res.allFreesOk = false)
  ∧ (∃ res, chrish_loop env0 ["ls\n"] w0 PtrSt.uninit = some res
      ∧ res.allFreesOk = false)
  ∧ PtrSt.uninit.freeOk = false ∧ PtrSt.freed.freeOk = false :=
  ⟨⟨⟨ExitVia.endOfInput, 0, ⟨"/", ["> ", "-1\n"], []⟩, false⟩, by decide, rfl⟩,
   ⟨⟨ExitVia.endOfInput, 0, ⟨"/", ["> ", "3\n", "1\n", "> ", "-1\n"], []⟩,
      false⟩, by decide, rfl⟩,
   rfl, rfl⟩

end Chrish
